import Mathlib

/-!
Shallow embedding of the page-level OCR orchestration pipeline of
`ocr_vision.py` (and its variant `ocr_vision_for_graph.py`).

Modeling conventions:
* The network is abstracted by an oracle `Nat → Except String String`
  giving, for each 1-based attempt number, the outcome of the single
  `requests.post` call of that attempt (`.ok text` for a successful
  2xx well-formed response, `.error cause` for any exception).
* `time.sleep(delay)` is recorded, not performed: each executed sleep
  appends its duration to a list, so both the number of sleeps and the
  slept durations are observable.
* `print` logging of per-attempt errors is recorded in a `log` list.
* The filesystem output directory is a `List (String × String)`
  association list from document (folder) name to written file content;
  `os.path.exists(output_file)` is `List.lookup`.
* Per-page OCR at the `process_document` level is abstracted by
  `ocr : String → Option String`, the final outcome of
  `call_ocr_api` for the page image of that filename (`none` = all
  retries exhausted, matching the `None` return).
-/

namespace OcrVision

/-- `True` exactly when an `Except` outcome is a failure. -/
def isErr : Except String String → Bool
  | .error _ => true
  | .ok _ => false

/-- The cause carried by a failed outcome (dummy `""` on success). -/
def errOf : Except String String → String
  | .error e => e
  | .ok _ => ""

/-- Observable trace of one `call_ocr_api` run: its return value, the
number of HTTP attempts made, the durations of the executed
`time.sleep` calls in order, and the printed error causes in order. -/
structure RunStats where
  result : Option String
  calls : Nat
  sleeps : List Nat
  log : List String
  deriving DecidableEq, Repr

/-- The body of the `for attempt in range(1, max_retries + 1)` loop of
`call_ocr_api`, starting at attempt number `attempt` with `fuel`
iterations left.  On success the text is returned at once; on failure
the cause is printed and, when `attempt < max_retries`, a sleep of
`delay` happens before the next attempt.  Falling off the loop returns
`None`. -/
def callLoop (oracle : Nat → Except String String) (max_retries delay : Nat) :
    Nat → Nat → RunStats
  | 0, _ => ⟨none, 0, [], []⟩
  | fuel + 1, attempt =>
    match oracle attempt with
    | .ok text => ⟨some text, 1, [], []⟩
    | .error e =>
      let rest := callLoop oracle max_retries delay fuel (attempt + 1)
      { result := rest.result
        calls := rest.calls + 1
        sleeps := (if attempt < max_retries then [delay] else []) ++ rest.sleeps
        log := e :: rest.log }

/-- `call_ocr_api(image_b64, max_retries=3, delay=5)`: attempts the POST
up to `max_retries` times (attempt numbers `1..max_retries`), sleeping
`delay` after every failed attempt except the last, and returns the
first successful text, else `None`. -/
def call_ocr_api (oracle : Nat → Except String String)
    (max_retries : Nat := 3) (delay : Nat := 5) : RunStats :=
  callLoop oracle max_retries delay max_retries 1

/-! ### Natural sort key (`natural_sort_key` in `process_document`)

`re.split(r'(\d+)', s)` cuts `s` into an alternating sequence of
non-digit segments (possibly empty at either end) and maximal digit
runs; the key maps digit runs to their integer value and non-digit
segments to their lowercase form.  We realise the same alternation with
a two-state tokenizer over the character list. -/

/-- Lowercase of a character list (`str.lower()`, ASCII range). -/
def lowerSeg (cs : List Char) : List Char := cs.map Char.toLower

/-- Numeric value of one more digit appended to an accumulator
(`int()` of a digit run, folded left). -/
def digStep (n : Nat) (c : Char) : Nat := n * 10 + (c.toNat - 48)

mutual

/-- Tokenizer state: inside a non-digit segment whose characters so far
are `acc` (reversed). -/
def nkNon (acc : List Char) : List Char → List (List Char ⊕ Nat)
  | [] => [Sum.inl (lowerSeg acc.reverse)]
  | c :: cs =>
    if c.isDigit then
      Sum.inl (lowerSeg acc.reverse) :: nkDig (digStep 0 c) cs
    else
      nkNon (c :: acc) cs

/-- Tokenizer state: inside a digit run whose value so far is `n`. -/
def nkDig (n : Nat) : List Char → List (List Char ⊕ Nat)
  | [] => [Sum.inr n, Sum.inl []]
  | c :: cs =>
    if c.isDigit then nkDig (digStep n c) cs
    else Sum.inr n :: nkNon [c] cs

end

/-- `natural_sort_key(s)`: the alternating lowercased-segment / integer
key list used to sort page image filenames. -/
def natural_sort_key (s : String) : List (List Char ⊕ Nat) := nkNon [] s.data

/-- Python string `<`: lexicographic by code point, first unequal
character decides, a strict prefix is smaller. -/
def charListLt : List Char → List Char → Bool
  | [], [] => false
  | [], _ :: _ => true
  | _ :: _, [] => false
  | a :: as, b :: bs => if a = b then charListLt as bs else a < b

/-- Comparison of two key elements, as Python compares list elements of
the same type: strings lexicographically (by code point), integers
numerically.  Mixed comparisons (which raise `TypeError` in Python and
never occur between well-formed keys, whose types alternate by
position) are mapped to `false`. -/
def eltLt : (List Char ⊕ Nat) → (List Char ⊕ Nat) → Bool
  | Sum.inl a, Sum.inl b => charListLt a b
  | Sum.inr m, Sum.inr n => m < n
  | Sum.inl _, Sum.inr _ => false
  | Sum.inr _, Sum.inl _ => false

/-- Python list `<`: lexicographic, first unequal pair decides, a
strict prefix is smaller. -/
def keyLt : List (List Char ⊕ Nat) → List (List Char ⊕ Nat) → Bool
  | [], [] => false
  | [], _ :: _ => true
  | _ :: _, [] => false
  | a :: as, b :: bs => if a = b then keyLt as bs else eltLt a b

/-- The non-strict order induced on filenames by `natural_sort_key`:
`a` may come before `b` iff `key(b) < key(a)` fails.  `list.sort` with
a key performs a stable sort under exactly this order. -/
def naturalLe (a b : String) : Bool := !(keyLt (natural_sort_key b) (natural_sort_key a))

/-- The filename filter of `process_document`:
`f.lower().endswith((".png", ".jpg", ".jpeg"))`. -/
def isImageFile (f : String) : Bool :=
  let l := f.data.map Char.toLower
  ".png".data.isSuffixOf l || ".jpg".data.isSuffixOf l || ".jpeg".data.isSuffixOf l

/-- Insert a newly arriving filename after every already-placed
filename that may stay before it (`naturalLe b a`, which in particular
holds on key ties, making the sort stable). -/
def insertSorted (a : String) : List String → List String
  | [] => [a]
  | b :: l => if naturalLe b a then b :: insertSorted a l else a :: b :: l

/-- `images.sort(key=natural_sort_key)`: Python's `list.sort` is a
stable ascending sort under the key order, and the stable sort of a
list is unique, so we realise it by stable insertion in listing
order. -/
def sortImages (l : List String) : List String :=
  l.foldl (fun acc a => insertSorted a acc) []

/-- `int()` of a digit run (most significant digit first). -/
def digitsVal (ds : List Char) : Nat := ds.foldl digStep 0

/-- Well-formed sort keys and key tails: `Alt false` lists start with
a text segment and then alternate segment/integer (the shape of every
`natural_sort_key` value, emitted by `nkNon`); `Alt true` lists start
with an integer (the shape emitted by `nkDig`).  Python never compares
an `int` key element with a `str` one because elements of the same
position always have the same kind. -/
inductive Alt : Bool → List (List Char ⊕ Nat) → Prop
  | last (a : List Char) : Alt false [Sum.inl a]
  | non (a : List Char) {rest : List (List Char ⊕ Nat)} :
      Alt true rest → Alt false (Sum.inl a :: rest)
  | dig (n : Nat) {rest : List (List Char ⊕ Nat)} :
      Alt false rest → Alt true (Sum.inr n :: rest)

/-! ### The shared `texts` array

Each `ocr_page` task performs `texts[idx] = text` for its own index;
completion order is scheduler-dependent, so we model the sequence of
assignments as an arbitrary list of `(index, text)` pairs applied in
completion order to the initial `[""] * len(images)`. -/

/-- Apply a completion-ordered sequence of `texts[idx] = text`
assignments to the texts list. -/
def applyWrites (texts : List String) (ws : List (Nat × String)) : List String :=
  ws.foldl (fun ts w => ts.set w.1 w.2) texts

/-! ### `process_document` and `main` -/

/-- One entry of `INPUT_DIR`, as `process_document` sees it: its
folder name, whether `os.path.isdir` holds, and the `os.listdir`
result in enumeration order. -/
structure Folder where
  name : String
  isDir : Bool
  files : List String
  deriving DecidableEq, Repr

/-- How one `process_document` call ended. -/
inductive DocStatus where
  /-- The folder path is not a directory: silently return. -/
  | notADir : DocStatus
  /-- The output file already exists: skip without any OCR call. -/
  | skippedAlreadyDone : DocStatus
  /-- Some page exhausted its retries; the `RuntimeError` was caught and
  the document skipped with the given message. -/
  | ocrFailed (msg : String) : DocStatus
  /-- All pages succeeded and the joined text was written. -/
  | written : DocStatus
  deriving DecidableEq, Repr

/-- Result of one `process_document` call: the output directory after
the call, the status, and how many page-level OCR calls (invocations of
`call_ocr_api`, one per dispatched page task) were made. -/
structure DocOutcome where
  outputs : List (String × String)
  status : DocStatus
  ocrCalls : Nat
  deriving DecidableEq, Repr

/-- The first page (in dispatch order) whose OCR outcome is `None`,
if any: `executor.map` yields results in submission order, so the
`RuntimeError` observed by the `list(...)` consumer is the one of the
earliest-index failing page. -/
def firstFailure (ocr : String → Option String) : List String → Option String
  | [] => none
  | img :: rest => if ocr img = none then some img else firstFailure ocr rest

/-- The pages of a folder in dispatch order: `os.listdir` filtered to
image files and sorted by `natural_sort_key` (`images.sort(key=...)` is
a stable sort under `naturalLe`). -/
def documentImages (folder : Folder) : List String :=
  sortImages (folder.files.filter isImageFile)

/-- `process_document(folder_name)`, with the per-page outcome of
`call_ocr_api` abstracted as `ocr` and the output directory threaded
explicitly.  If any page's OCR returns `None`, the raised
`RuntimeError` is caught, the document is skipped, and nothing is
written; otherwise the page texts are joined with a blank line and
written under the folder's name. -/
def process_document (ocr : String → Option String)
    (outputs : List (String × String)) (folder : Folder) : DocOutcome :=
  if folder.isDir = false then ⟨outputs, .notADir, 0⟩
  else if (outputs.lookup folder.name).isSome then ⟨outputs, .skippedAlreadyDone, 0⟩
  else
    let images := documentImages folder
    match firstFailure ocr images with
    | some img => ⟨outputs, .ocrFailed ("OCR failed for " ++ img), images.length⟩
    | none =>
      let texts := images.map (fun img => (ocr img).getD "")
      ⟨outputs ++ [(folder.name, String.intercalate "\n\n" texts)], .written, images.length⟩

/-- `main()`: process every folder of `INPUT_DIR` in enumeration order,
threading the output directory through and collecting each document's
status. -/
def mainRun (ocr : String → String → Option String)
    (outputs : List (String × String)) :
    List Folder → List (String × String) × List DocStatus
  | [] => (outputs, [])
  | f :: rest =>
    let o := process_document (ocr f.name) outputs f
    let r := mainRun ocr o.outputs rest
    (r.1, o.status :: r.2)

/-! ### The worker pool (`ThreadPoolExecutor(max_workers=...)`)

An abstract small-step semantics of a bounded thread pool running one
task per page: a pending task may start only while fewer than
`maxWorkers` tasks are in flight, and an in-flight task may finish. -/

/-- Counting abstraction of the pool: how many page tasks are not yet
started, currently running, and finished. -/
structure PoolState where
  pending : Nat
  inFlight : Nat
  done : Nat
  deriving DecidableEq, Repr

/-- One scheduler step of `ThreadPoolExecutor(max_workers=m)`. -/
inductive PoolStep (m : Nat) : PoolState → PoolState → Prop
  /-- A pending task starts, allowed only below the worker limit. -/
  | start {p f d : Nat} (hf : f < m) :
      PoolStep m ⟨p + 1, f, d⟩ ⟨p, f + 1, d⟩
  /-- An in-flight task finishes. -/
  | finish {p f d : Nat} :
      PoolStep m ⟨p, f + 1, d⟩ ⟨p, f, d + 1⟩

/-- The worker limit of `ocr_vision.py`:
`ThreadPoolExecutor(max_workers=5)`. -/
def max_workers : Nat := 5

/-- The worker limit of `ocr_vision_for_graph.py`:
`ThreadPoolExecutor(max_workers=1)`. -/
def max_workers_graph : Nat := 1

/-! ### Concrete oracles used as witnesses -/

/-- An attempt oracle that fails on attempts 1 and 2 and succeeds from
attempt 3 on. -/
def oracleFailTwice : Nat → Except String String :=
  fun i => if i < 3 then .error "boom" else .ok "T"

/-- An attempt oracle that always fails with one cause. -/
def oracleAlwaysFail : Nat → Except String String :=
  fun _ => .error "connection refused"

/-- An attempt oracle that always fails with a different cause. -/
def oracleOtherFail : Nat → Except String String :=
  fun _ => .error "timeout"

/-- A concrete three-page document folder, listed out of page order. -/
def folderInvoice : Folder :=
  ⟨"invoice", true, ["page2.png", "page1.png", "page3.png"]⟩

/-- Page-level OCR outcomes for `folderInvoice`: every page succeeds. -/
def ocrInvoice : String → Option String := fun img =>
  if img = "page1.png" then some "A"
  else if img = "page2.png" then some "B"
  else if img = "page3.png" then some "C"
  else none

/-- Page-level OCR outcomes where page 2 of `folderInvoice` exhausts
its retries. -/
def ocrInvoiceBad : String → Option String := fun img =>
  if img = "page1.png" then some "A"
  else if img = "page3.png" then some "C"
  else none

/-- A document folder containing no page image (its only file has no
image extension). -/
def folderEmpty : Folder := ⟨"empty", true, ["notes.txt"]⟩

/-- A per-document OCR oracle for driver runs: document "invoice" has
a page whose retries exhaust, every other lookup succeeds. -/
def ocrDriver : String → String → Option String := fun name img =>
  if name = "invoice" then ocrInvoiceBad img else some "X"

end OcrVision

namespace OcrVision

theorem callLoop_all_fail (oracle : Nat → Except String String) (m d : Nat) :
    ∀ fuel attempt, attempt + fuel = m + 1 →
    (∀ i, attempt ≤ i → i ≤ m → isErr (oracle i) = true) →
    callLoop oracle m d fuel attempt =
      ⟨none, fuel, List.replicate (fuel - 1) d,
       (List.range' attempt fuel).map (fun i => errOf (oracle i))⟩ := by
  intro fuel
  induction fuel with
  | zero => intro attempt _ _; rfl
  | succ g ih =>
    intro attempt hlen hf
    have hattempt : attempt ≤ m := by omega
    have herr : isErr (oracle attempt) = true := hf attempt le_rfl hattempt
    obtain ⟨e, he⟩ : ∃ e, oracle attempt = .error e := by
      cases h : oracle attempt with
      | error e => exact ⟨e, rfl⟩
      | ok t => rw [h] at herr; simp [isErr] at herr
    have hrest := ih (attempt + 1) (by omega) (fun i h1 h2 => hf i (by omega) h2)
    simp only [callLoop, he, hrest, RunStats.mk.injEq]
    refine ⟨trivial, trivial, ?_, ?_⟩
    · -- sleeps
      rcases Nat.eq_zero_or_pos g with hg | hg
      · subst hg
        have hnot : ¬ attempt < m := by omega
        simp [hnot]
      · have hlt : attempt < m := by omega
        rw [if_pos hlt]
        rw [show g + 1 - 1 = (g - 1) + 1 by omega, List.replicate_succ]
        rfl
    · -- log
      rw [List.range'_succ, List.map_cons, he]
      rfl

theorem callLoop_succeed (oracle : Nat → Except String String) (m d k : Nat) (t : String) :
    ∀ fuel attempt, attempt + fuel = m + 1 → attempt ≤ k → k ≤ m →
    (∀ i, attempt ≤ i → i < k → isErr (oracle i) = true) →
    oracle k = .ok t →
    callLoop oracle m d fuel attempt =
      ⟨some t, k + 1 - attempt, List.replicate (k - attempt) d,
       (List.range' attempt (k - attempt)).map (fun i => errOf (oracle i))⟩ := by
  intro fuel
  induction fuel with
  | zero => intro attempt hlen hak hkm _ _; omega
  | succ g ih =>
    intro attempt hlen hak hkm hf hok
    rcases Nat.eq_or_lt_of_le hak with heq | hlt
    · subst heq
      simp only [callLoop, hok]
      have h1 : attempt + 1 - attempt = 1 := by omega
      have h0 : attempt - attempt = 0 := by omega
      rw [h1, h0]
      rfl
    · have herr : isErr (oracle attempt) = true := hf attempt le_rfl hlt
      obtain ⟨e, he⟩ : ∃ e, oracle attempt = .error e := by
        cases h : oracle attempt with
        | error e => exact ⟨e, rfl⟩
        | ok s => rw [h] at herr; simp [isErr] at herr
      have hrest := ih (attempt + 1) (by omega) (by omega) hkm
        (fun i h1 h2 => hf i (by omega) h2) hok
      simp only [callLoop, he, hrest, RunStats.mk.injEq]
      have hm : attempt < m := by omega
      refine ⟨trivial, ?_, ?_, ?_⟩
      · omega
      · rw [if_pos hm]
        rw [show k - attempt = (k - (attempt + 1)) + 1 by omega, List.replicate_succ]
        rfl
      · rw [show k - attempt = (k - (attempt + 1)) + 1 by omega, List.range'_succ,
          List.map_cons, he]
        rfl

/-- C1: for every page image and every `maxAttempts ≥ 1`, if the
underlying extraction fails on the first `maxAttempts - 1` attempts and
succeeds on the last, `call_ocr_api` returns the extracted text; if all
`maxAttempts` attempts fail it returns `None`, and exactly
`maxAttempts` extraction calls are made in total. -/
theorem call_ocr_api_retry_policy (m : Nat) (t : String)
    (oA oB : Nat → Except String String)
    (hm : 1 ≤ m)
    (hAf : ∀ i, 1 ≤ i → i < m → isErr (oA i) = true)
    (hAs : oA m = .ok t)
    (hBf : ∀ i, 1 ≤ i → i ≤ m → isErr (oB i) = true) :
    (call_ocr_api oA m).result = some t ∧
    (call_ocr_api oB m).result = none ∧
    (call_ocr_api oB m).calls = m := by
  unfold call_ocr_api
  rw [callLoop_succeed oA m 5 m t m 1 (by omega) hm le_rfl hAf hAs]
  rw [callLoop_all_fail oB m 5 m 1 (by omega) hBf]
  exact ⟨rfl, rfl, rfl⟩

/-- Witness for C1 at `maxAttempts = 3`, with an oracle failing twice
then succeeding and an oracle always failing. -/
theorem call_ocr_api_retry_policy_witness :
    (call_ocr_api oracleFailTwice 3).result = some "T" ∧
    (call_ocr_api oracleAlwaysFail 3).result = none ∧
    (call_ocr_api oracleAlwaysFail 3).calls = 3 :=
  call_ocr_api_retry_policy 3 "T" oracleFailTwice oracleAlwaysFail (by omega)
    (fun i _ h2 => by simp [oracleFailTwice, isErr, h2])
    (by simp [oracleFailTwice, isErr])
    (fun _ _ _ => rfl)

/-- C6: in every `call_ocr_api` run a sleep of exactly `delay` (fixed,
not exponential) follows each failed attempt except the final one and
never follows a successful attempt: a run failing on attempts
`1..k-1` and succeeding at attempt `k ≤ maxAttempts` sleeps exactly
`k - 1` times, and an all-fail run sleeps exactly `maxAttempts - 1`
times, each sleep of duration `delay`. -/
theorem call_ocr_api_sleep_policy (m k d : Nat) (t : String)
    (oS oF : Nat → Except String String)
    (hk1 : 1 ≤ k) (hkm : k ≤ m)
    (hSf : ∀ i, 1 ≤ i → i < k → isErr (oS i) = true)
    (hSs : oS k = .ok t)
    (hFf : ∀ i, 1 ≤ i → i ≤ m → isErr (oF i) = true) :
    (call_ocr_api oS m d).sleeps = List.replicate (k - 1) d ∧
    (call_ocr_api oF m d).sleeps = List.replicate (m - 1) d := by
  unfold call_ocr_api
  rw [callLoop_succeed oS m d k t m 1 (by omega) hk1 hkm hSf hSs]
  rw [callLoop_all_fail oF m d m 1 (by omega) hFf]
  exact ⟨rfl, rfl⟩

/-- Witness for C6: a page failing twice then succeeding on the third
of three attempts sleeps exactly twice, 5 units each; an all-fail run
over three attempts also sleeps exactly twice. -/
theorem call_ocr_api_sleep_policy_witness :
    (call_ocr_api oracleFailTwice 3 5).sleeps = List.replicate 2 5 ∧
    (call_ocr_api oracleAlwaysFail 3 5).sleeps = List.replicate 2 5 :=
  call_ocr_api_sleep_policy 3 3 5 "T" oracleFailTwice oracleAlwaysFail
    (by omega) le_rfl
    (fun i _ h2 => by simp [oracleFailTwice, isErr, h2])
    (by simp [oracleFailTwice, isErr])
    (fun _ _ _ => rfl)

/-- C7 counterexample: two all-fail runs whose final attempts carry
different causes return the same value (`None`), so the returned
`Failed` outcome does not carry the last failure cause. -/
theorem call_ocr_api_drops_last_cause :
    (call_ocr_api oracleAlwaysFail 1).result = (call_ocr_api oracleOtherFail 1).result ∧
    errOf (oracleAlwaysFail 1) ≠ errOf (oracleOtherFail 1) := by
  refine ⟨rfl, ?_⟩
  decide

/-- C7 as amended: when `call_ocr_api` exhausts all `maxAttempts`
attempts it returns `None`, which carries no cause; the cause of every
failed attempt, the final one included, is only printed, so the last
log entry is the final attempt's cause. -/
theorem call_ocr_api_failure_logged_cause (m d : Nat)
    (o : Nat → Except String String) (hm : 1 ≤ m)
    (hf : ∀ i, 1 ≤ i → i ≤ m → isErr (o i) = true) :
    (call_ocr_api o m d).result = none ∧
    (call_ocr_api o m d).log.getLast? = some (errOf (o m)) := by
  unfold call_ocr_api
  rw [callLoop_all_fail o m d m 1 (by omega) hf]
  refine ⟨rfl, ?_⟩
  have hsplit : List.range' 1 m = List.range' 1 (m - 1) ++ [m] := by
    rw [show m = (m - 1) + 1 by omega, List.range'_concat]
    simp
    omega
  simp only [hsplit, List.map_append, List.map_cons, List.map_nil]
  rw [List.getLast?_concat]

/-- Witness for the amended C7: a three-attempt all-fail run returns
`None` and its last printed cause is the final attempt's cause. -/
theorem call_ocr_api_failure_logged_cause_witness :
    (call_ocr_api oracleAlwaysFail 3 5).result = none ∧
    (call_ocr_api oracleAlwaysFail 3 5).log.getLast? =
      some (errOf (oracleAlwaysFail 3)) :=
  call_ocr_api_failure_logged_cause 3 5 oracleAlwaysFail (by omega)
    (fun _ _ _ => rfl)

theorem applyWrites_cons (init : List String) (w : Nat × String) (ws : List (Nat × String)) :
    applyWrites init (w :: ws) = applyWrites (init.set w.1 w.2) ws := rfl

theorem applyWrites_length (ws : List (Nat × String)) :
    ∀ init : List String, (applyWrites init ws).length = init.length := by
  induction ws with
  | nil => intro init; rfl
  | cons w rest ih =>
    intro init
    rw [applyWrites_cons, ih, List.length_set]

theorem applyWrites_getElem_not_mem (ws : List (Nat × String)) :
    ∀ (init : List String) (j : Nat), j ∉ ws.map Prod.fst →
    (applyWrites init ws)[j]? = init[j]? := by
  induction ws with
  | nil => intro init j _; rfl
  | cons w rest ih =>
    intro init j hj
    simp only [List.map_cons, List.mem_cons] at hj
    push_neg at hj
    rw [applyWrites_cons, ih _ j hj.2, List.getElem?_set_ne (fun h => hj.1 h.symm)]

theorem applyWrites_getElem_mem (ws : List (Nat × String)) :
    ∀ (init : List String) (j : Nat) (t : String),
    (ws.map Prod.fst).Nodup → (j, t) ∈ ws → j < init.length →
    (applyWrites init ws)[j]? = some t := by
  induction ws with
  | nil => intro _ _ _ _ hmem _; cases hmem
  | cons w rest ih =>
    intro init j t hnd hmem hj
    simp only [List.map_cons, List.nodup_cons] at hnd
    rw [applyWrites_cons]
    rcases List.mem_cons.mp hmem with heq | hmem'
    · subst heq
      rw [applyWrites_getElem_not_mem rest _ j hnd.1, List.getElem?_set_self hj]
    · exact ih _ j t hnd.2 hmem' (by rw [List.length_set]; exact hj)

/-- C2: for every page count and every all-success completion
sequence, applying the per-task `texts[idx] = text` writes in any
completion order and joining with a blank line yields the page texts
in index order; in particular the three-page document `folderInvoice`
with page texts "A", "B", "C" yields "A\n\nB\n\nC". -/
theorem assemble_order_independent (n : Nat) (f : Nat → String)
    (ws : List (Nat × String))
    (hperm : ws.Perm ((List.range n).map (fun i => (i, f i)))) :
    applyWrites (List.replicate n "") ws = (List.range n).map f ∧
    String.intercalate "\n\n" (applyWrites (List.replicate n "") ws) =
      String.intercalate "\n\n" ((List.range n).map f) ∧
    (process_document ocrInvoice [] folderInvoice).outputs =
      [("invoice", "A\n\nB\n\nC")] := by
  have hmain : applyWrites (List.replicate n "") ws = (List.range n).map f := by
    apply List.ext_getElem?
    intro j
    by_cases hj : j < n
    · have hmem : (j, f j) ∈ ws := by
        rw [hperm.mem_iff]
        exact List.mem_map.mpr ⟨j, List.mem_range.mpr hj, rfl⟩
      have hnd : (ws.map Prod.fst).Nodup := by
        rw [(hperm.map Prod.fst).nodup_iff, List.map_map,
          show (Prod.fst ∘ fun i => (i, f i)) = fun i : Nat => i from rfl,
          List.map_id']
        exact List.nodup_range n
      rw [applyWrites_getElem_mem ws _ j (f j) hnd hmem
        (by rw [List.length_replicate]; exact hj)]
      rw [List.getElem?_map, List.getElem?_range hj]
      rfl
    · rw [List.getElem?_eq_none, List.getElem?_eq_none]
      · simp only [List.length_map, List.length_range]; omega
      · rw [applyWrites_length, List.length_replicate]; omega
  exact ⟨hmain, by rw [hmain], by decide⟩

theorem firstFailure_of_mem (ocr : String → Option String) :
    ∀ (l : List String) (img : String), img ∈ l → ocr img = none →
    ∃ name, firstFailure ocr l = some name := by
  intro l
  induction l with
  | nil => intro img hmem; cases hmem
  | cons a rest ih =>
    intro img hmem hfail
    by_cases ha : ocr a = none
    · exact ⟨a, by simp [firstFailure, ha]⟩
    · rcases List.mem_cons.mp hmem with heq | hmem'
      · exact absurd (heq ▸ hfail) ha
      · obtain ⟨name, hn⟩ := ih img hmem' hfail
        exact ⟨name, by simp [firstFailure, ha, hn]⟩

/-- Shared shape of a `process_document` call in which some page's OCR
outcome is `None`: the `RuntimeError` is caught, nothing is written,
and the document is reported failed. -/
theorem process_document_failure (ocr : String → Option String)
    (outputs : List (String × String)) (folder : Folder) (img : String)
    (hdir : folder.isDir = true)
    (hnew : outputs.lookup folder.name = none)
    (hmem : img ∈ documentImages folder)
    (hfail : ocr img = none) :
    ∃ m, process_document ocr outputs folder =
      ⟨outputs, .ocrFailed m, (documentImages folder).length⟩ := by
  obtain ⟨name, hff⟩ := firstFailure_of_mem ocr (documentImages folder) img hmem hfail
  refine ⟨"OCR failed for " ++ name, ?_⟩
  simp [process_document, hdir, hnew, hff]

/-- `List.lookup` finds a freshly appended binding whose key was absent
before. -/
theorem lookup_append_singleton (name v : String) :
    ∀ outputs : List (String × String), outputs.lookup name = none →
    (outputs ++ [(name, v)]).lookup name = some v := by
  intro outputs
  induction outputs with
  | nil => intro _; simp [List.lookup]
  | cons p rest ih =>
    intro h
    rcases p with ⟨k, b⟩
    rw [List.lookup_cons] at h
    cases hk : (name == k) with
    | true => rw [hk] at h; cases h
    | false =>
      rw [hk] at h
      rw [List.cons_append, List.lookup_cons, hk]
      exact ih h

/-- Witness for C2 at `n = 3` with writes arriving in the completion
order 2, 0, 1. -/
theorem assemble_order_independent_witness :
    applyWrites (List.replicate 3 "") [(2, "C"), (0, "A"), (1, "B")] =
      (List.range 3).map (fun i => [("A" : String), "B", "C"].getD i "") ∧
    String.intercalate "\n\n"
        (applyWrites (List.replicate 3 "") [(2, "C"), (0, "A"), (1, "B")]) =
      String.intercalate "\n\n"
        ((List.range 3).map (fun i => [("A" : String), "B", "C"].getD i "")) ∧
    (process_document ocrInvoice [] folderInvoice).outputs =
      [("invoice", "A\n\nB\n\nC")] :=
  assemble_order_independent 3 (fun i => [("A" : String), "B", "C"].getD i "")
    [(2, "C"), (0, "A"), (1, "B")] (by decide)

/-- C3: if any page of a document exhausts its retries, the document
is reported failed and no write to the output sink occurs — the output
directory is left exactly as it was, so the successful texts of the
other pages are discarded rather than persisted. -/
theorem failed_page_no_write (ocr : String → Option String)
    (outputs : List (String × String)) (folder : Folder) (img : String)
    (hdir : folder.isDir = true)
    (hnew : outputs.lookup folder.name = none)
    (hmem : img ∈ documentImages folder)
    (hfail : ocr img = none) :
    (process_document ocr outputs folder).outputs = outputs ∧
    ∃ m, (process_document ocr outputs folder).status = .ocrFailed m := by
  obtain ⟨m, hm⟩ := process_document_failure ocr outputs folder img hdir hnew hmem hfail
  rw [hm]
  exact ⟨rfl, m, rfl⟩

/-- Witness for C3: in `folderInvoice` under `ocrInvoiceBad`, page 2
fails while pages 1 and 3 succeed; nothing is written. -/
theorem failed_page_no_write_witness :
    (process_document ocrInvoiceBad [] folderInvoice).outputs = [] ∧
    ∃ m, (process_document ocrInvoiceBad [] folderInvoice).status = .ocrFailed m :=
  failed_page_no_write ocrInvoiceBad [] folderInvoice "page2.png" rfl rfl
    (by decide) rfl

/-- C4: when the output sink already holds an entry under the
document's name, `process_document` performs zero OCR calls and leaves
everything unchanged, so a rerun never repeats a completed document. -/
theorem resume_skips_completed_document (ocr : String → Option String)
    (outputs : List (String × String)) (folder : Folder)
    (hdir : folder.isDir = true)
    (hdone : (outputs.lookup folder.name).isSome = true) :
    process_document ocr outputs folder = ⟨outputs, .skippedAlreadyDone, 0⟩ := by
  simp [process_document, hdir, hdone]

/-- Witness for C4: an already-present "invoice" output is skipped
untouched with zero OCR calls. -/
theorem resume_skips_completed_document_witness :
    process_document ocrInvoice [("invoice", "old")] folderInvoice =
      ⟨[("invoice", "old")], .skippedAlreadyDone, 0⟩ :=
  resume_skips_completed_document ocrInvoice [("invoice", "old")] folderInvoice
    rfl (by decide)

/-- C10: a document folder with zero page images and no pre-existing
output performs zero OCR calls yet still writes an output file holding
the empty string, and is therefore skipped as already done on the next
run. -/
theorem empty_document_writes_empty_file (ocr : String → Option String)
    (outputs : List (String × String)) (folder : Folder)
    (hdir : folder.isDir = true)
    (hnew : outputs.lookup folder.name = none)
    (hempty : folder.files.filter isImageFile = []) :
    process_document ocr outputs folder =
      ⟨outputs ++ [(folder.name, "")], .written, 0⟩ ∧
    process_document ocr (outputs ++ [(folder.name, "")]) folder =
      ⟨outputs ++ [(folder.name, "")], .skippedAlreadyDone, 0⟩ := by
  have himg : documentImages folder = [] := by
    unfold documentImages
    rw [hempty]
    rfl
  constructor
  · simp [process_document, hdir, hnew, himg, firstFailure]
    rfl
  · have hl := lookup_append_singleton folder.name "" outputs hnew
    simp [process_document, hdir, hl]

/-- Witness for C10: `folderEmpty` contains only "notes.txt"; a run
writes "" and a rerun skips it. -/
theorem empty_document_writes_empty_file_witness :
    process_document ocrInvoice [] folderEmpty =
      ⟨[] ++ [("empty", "")], .written, 0⟩ ∧
    process_document ocrInvoice ([] ++ [("empty", "")]) folderEmpty =
      ⟨[] ++ [("empty", "")], .skippedAlreadyDone, 0⟩ :=
  empty_document_writes_empty_file ocrInvoice [] folderEmpty rfl rfl (by decide)

/-- C8: a document whose processing fails (a page exhausted its
retries) is recorded as failed and skipped, the output sink is left
unchanged by it, and the driver still processes every remaining
document exactly as a run starting at those documents would. -/
theorem run_continues_after_failed_document (ocr : String → String → Option String)
    (outputs : List (String × String)) (d : Folder) (rest : List Folder)
    (img : String)
    (hdir : d.isDir = true)
    (hnew : outputs.lookup d.name = none)
    (hmem : img ∈ documentImages d)
    (hfail : ocr d.name img = none) :
    (∃ m, (mainRun ocr outputs (d :: rest)).2.head? = some (.ocrFailed m)) ∧
    (mainRun ocr outputs (d :: rest)).1 = (mainRun ocr outputs rest).1 ∧
    (mainRun ocr outputs (d :: rest)).2.tail = (mainRun ocr outputs rest).2 := by
  obtain ⟨m, hm⟩ :=
    process_document_failure (ocr d.name) outputs d img hdir hnew hmem hfail
  refine ⟨⟨m, ?_⟩, ?_, ?_⟩ <;> simp [mainRun, hm]

/-- Witness for C8: the failing "invoice" document is logged and the
following "empty" document is still processed. -/
theorem run_continues_after_failed_document_witness :
    (∃ m, (mainRun ocrDriver [] [folderInvoice, folderEmpty]).2.head? =
      some (.ocrFailed m)) ∧
    (mainRun ocrDriver [] [folderInvoice, folderEmpty]).1 =
      (mainRun ocrDriver [] [folderEmpty]).1 ∧
    (mainRun ocrDriver [] [folderInvoice, folderEmpty]).2.tail =
      (mainRun ocrDriver [] [folderEmpty]).2 :=
  run_continues_after_failed_document ocrDriver [] folderInvoice [folderEmpty]
    "page2.png" rfl rfl (by decide) rfl

/-- Any pool run that starts within the in-flight bound stays within
it: starting a task requires strictly fewer than `m` tasks in flight,
and finishing one only decreases the count. -/
theorem poolReach_inFlight_le (m : Nat) (s s' : PoolState)
    (h : Relation.ReflTransGen (PoolStep m) s s') (hs : s.inFlight ≤ m) :
    s'.inFlight ≤ m := by
  induction h with
  | refl => exact hs
  | tail _ hbc ih =>
    cases hbc with
    | start hf => exact hf
    | finish => simp only [] at ih ⊢; omega

/-- C5 counterexample: the worker limit is the hardcoded
`max_workers = 5` of `ocr_vision.py`, not an injected configuration
value, so under a deployment-configured concurrency of `C = 1` the
pool still reaches a state with 2 extraction tasks in flight. -/
theorem pool_ignores_configured_concurrency :
    Relation.ReflTransGen (PoolStep max_workers) ⟨2, 0, 0⟩ ⟨0, 2, 0⟩ ∧
    ¬ ((2 : Nat) ≤ 1) ∧ max_workers = 5 ∧ max_workers_graph = 1 := by
  refine ⟨?_, by omega, rfl, rfl⟩
  have s1 : PoolStep max_workers ⟨2, 0, 0⟩ ⟨1, 1, 0⟩ :=
    PoolStep.start (by decide)
  have s2 : PoolStep max_workers ⟨1, 1, 0⟩ ⟨0, 2, 0⟩ :=
    PoolStep.start (by decide)
  exact Relation.ReflTransGen.tail (Relation.ReflTransGen.single s1) s2

/-- C5 as amended: during a document's processing no more than
`max_workers` extraction tasks are ever in flight, where the limit is
the hardcoded constant of each variant — 5 in `ocr_vision.py` and 1 in
`ocr_vision_for_graph.py` — rather than an injectable configuration
value. -/
theorem pool_inflight_hardcoded_bound (n n' : Nat) (s s' : PoolState)
    (h : Relation.ReflTransGen (PoolStep max_workers) ⟨n, 0, 0⟩ s)
    (h' : Relation.ReflTransGen (PoolStep max_workers_graph) ⟨n', 0, 0⟩ s') :
    s.inFlight ≤ 5 ∧ s'.inFlight ≤ 1 :=
  ⟨poolReach_inFlight_le max_workers ⟨n, 0, 0⟩ s h (Nat.zero_le _),
   poolReach_inFlight_le max_workers_graph ⟨n', 0, 0⟩ s' h' (Nat.zero_le _)⟩

/-- Witness for the amended C5: a two-step run of the 5-bounded pool
reaching two in-flight tasks, and the idle 1-bounded pool. -/
theorem pool_inflight_hardcoded_bound_witness :
    (⟨0, 2, 0⟩ : PoolState).inFlight ≤ 5 ∧
    (⟨3, 0, 0⟩ : PoolState).inFlight ≤ 1 :=
  pool_inflight_hardcoded_bound 2 3 ⟨0, 2, 0⟩ ⟨3, 0, 0⟩
    (Relation.ReflTransGen.tail
      (Relation.ReflTransGen.single (PoolStep.start (by decide)))
      (PoolStep.start (by decide)))
    Relation.ReflTransGen.refl

theorem charListLt_asymm : ∀ x y, charListLt x y = true → charListLt y x = false := by
  intro x
  induction x with
  | nil =>
    intro y _
    cases y with
    | nil => rfl
    | cons b bs => rfl
  | cons a as ih =>
    intro y h
    cases y with
    | nil => cases h
    | cons b bs =>
      by_cases hab : a = b
      · subst hab
        simp only [charListLt, if_pos rfl] at h ⊢
        exact ih bs h
      · have hba : b ≠ a := fun e => hab e.symm
        simp only [charListLt, if_neg hab] at h
        simp only [charListLt, if_neg hba, decide_eq_false_iff_not]
        exact lt_asymm (of_decide_eq_true h)

theorem charListLt_trans : ∀ x y z, charListLt x y = true → charListLt y z = true →
    charListLt x z = true := by
  intro x
  induction x with
  | nil =>
    intro y z h1 h2
    cases y with
    | nil => cases h1
    | cons b bs =>
      cases z with
      | nil => cases h2
      | cons c cs => rfl
  | cons a as ih =>
    intro y z h1 h2
    cases y with
    | nil => cases h1
    | cons b bs =>
      cases z with
      | nil => cases h2
      | cons c cs =>
        by_cases hab : a = b <;> by_cases hbc : b = c
        · subst hab; subst hbc
          simp only [charListLt, if_pos rfl] at h1 h2 ⊢
          exact ih bs cs h1 h2
        · subst hab
          simp only [charListLt, if_pos rfl, if_neg hbc] at h1 h2 ⊢
          exact h2
        · subst hbc
          simp only [charListLt, if_neg hab, if_pos rfl] at h1 h2 ⊢
          exact h1
        · simp only [charListLt, if_neg hab, if_neg hbc] at h1 h2
          have h1' := of_decide_eq_true h1
          have h2' := of_decide_eq_true h2
          have hac : a ≠ c := by
            intro e
            subst e
            exact lt_asymm h1' h2'
          simp only [charListLt, if_neg hac]
          exact decide_eq_true (lt_trans h1' h2')

theorem charListLt_trichotomy : ∀ x y, x ≠ y →
    charListLt x y = true ∨ charListLt y x = true := by
  intro x
  induction x with
  | nil =>
    intro y hne
    cases y with
    | nil => exact absurd rfl hne
    | cons b bs => exact Or.inl rfl
  | cons a as ih =>
    intro y hne
    cases y with
    | nil => exact Or.inr rfl
    | cons b bs =>
      by_cases hab : a = b
      · subst hab
        have htl : as ≠ bs := fun e => hne (by rw [e])
        rcases ih bs htl with h | h
        · exact Or.inl (by simp only [charListLt, if_pos rfl]; exact h)
        · exact Or.inr (by simp only [charListLt, if_pos rfl]; exact h)
      · have hba : b ≠ a := fun e => hab e.symm
        rcases lt_or_gt_of_ne hab with h | h
        · exact Or.inl (by simp only [charListLt, if_neg hab]; exact decide_eq_true h)
        · exact Or.inr (by simp only [charListLt, if_neg hba]; exact decide_eq_true h)

theorem eltLt_asymm : ∀ e f, eltLt e f = true → eltLt f e = false := by
  intro e f h
  cases e with
  | inl a =>
    cases f with
    | inl b => exact charListLt_asymm a b h
    | inr n => rfl
  | inr m =>
    cases f with
    | inl b => rfl
    | inr n =>
      simp only [eltLt, decide_eq_true_eq] at h
      simp only [eltLt, decide_eq_false_iff_not]
      omega

theorem keyLt_irrefl : ∀ x, keyLt x x = false := by
  intro x
  induction x with
  | nil => rfl
  | cons a as ih => simp only [keyLt, if_pos rfl]; exact ih

theorem keyLt_asymm : ∀ x y, keyLt x y = true → keyLt y x = false := by
  intro x
  induction x with
  | nil =>
    intro y _
    cases y with
    | nil => rfl
    | cons b bs => rfl
  | cons a as ih =>
    intro y h
    cases y with
    | nil => cases h
    | cons b bs =>
      by_cases hab : a = b
      · subst hab
        simp only [keyLt, if_pos rfl] at h ⊢
        exact ih bs h
      · have hba : b ≠ a := fun e => hab e.symm
        simp only [keyLt, if_neg hab] at h
        simp only [keyLt, if_neg hba]
        exact eltLt_asymm a b h

theorem alt_false_shape {y : List (List Char ⊕ Nat)} (hy : Alt false y) :
    ∃ b yr, y = Sum.inl b :: yr ∧ (yr = [] ∨ Alt true yr) := by
  cases hy with
  | last b => exact ⟨b, [], rfl, Or.inl rfl⟩
  | non b hr => exact ⟨b, _, rfl, Or.inr hr⟩

theorem alt_true_shape {y : List (List Char ⊕ Nat)} (hy : Alt true y) :
    ∃ n yr, y = Sum.inr n :: yr ∧ Alt false yr := by
  cases hy with
  | dig n hr => exact ⟨n, _, rfl, hr⟩

theorem nk_alt : ∀ cs : List Char,
    (∀ acc, Alt false (nkNon acc cs)) ∧ (∀ n, Alt true (nkDig n cs)) := by
  intro cs
  induction cs with
  | nil =>
    refine ⟨fun acc => Alt.last _, fun n => ?_⟩
    exact Alt.dig n (Alt.last [])
  | cons c cs ih =>
    by_cases hc : c.isDigit = true
    · refine ⟨fun acc => ?_, fun n => ?_⟩
      · simp only [nkNon, if_pos hc]
        exact Alt.non _ (ih.2 _)
      · simp only [nkDig, if_pos hc]
        exact ih.2 _
    · refine ⟨fun acc => ?_, fun n => ?_⟩
      · simp only [nkNon, if_neg hc]
        exact ih.1 _
      · simp only [nkDig, if_neg hc]
        exact Alt.dig n (ih.1 _)

theorem nk_alt_key (s : String) : Alt false (natural_sort_key s) :=
  (nk_alt s.data).1 []

theorem alt_keyLt_trans_aux : ∀ (k : Nat) (ph : Bool) (x y z : List (List Char ⊕ Nat)),
    x.length ≤ k → Alt ph x → Alt ph y → Alt ph z →
    keyLt x y = true → keyLt y z = true → keyLt x z = true := by
  intro k
  induction k with
  | zero =>
    intro ph x y z hk hx _ _ _ _
    cases hx <;> simp at hk
  | succ k ih =>
    intro ph x y z hk hx hy hz h1 h2
    cases ph
    · -- text-segment phase
      obtain ⟨a, xr, rfl, hxr⟩ := alt_false_shape hx
      obtain ⟨b, yr, rfl, hyr⟩ := alt_false_shape hy
      obtain ⟨c, zr, rfl, hzr⟩ := alt_false_shape hz
      by_cases hab : a = b <;> by_cases hbc : b = c
      · subst hab; subst hbc
        simp only [keyLt, if_pos rfl] at h1 h2 ⊢
        rcases hxr with rfl | hxr
        · cases yr with
          | nil => cases h1
          | cons e yr' =>
            cases zr with
            | nil => cases h2
            | cons f zr' => rfl
        · rcases hyr with rfl | hyr
          · obtain ⟨m, xr', rfl, _⟩ := alt_true_shape hxr
            cases h1
          · rcases hzr with rfl | hzr
            · obtain ⟨n, yr', rfl, _⟩ := alt_true_shape hyr
              cases h2
            · exact ih true xr yr zr (by simp at hk; omega) hxr hyr hzr h1 h2
      · subst hab
        have hne : (Sum.inl a : List Char ⊕ Nat) ≠ Sum.inl c := by simpa using hbc
        simp only [keyLt, if_neg hne] at h2 ⊢
        exact h2
      · subst hbc
        have hne : (Sum.inl a : List Char ⊕ Nat) ≠ Sum.inl b := by simpa using hab
        simp only [keyLt, if_neg hne] at h1 ⊢
        exact h1
      · have hne1 : (Sum.inl a : List Char ⊕ Nat) ≠ Sum.inl b := by simpa using hab
        have hne2 : (Sum.inl b : List Char ⊕ Nat) ≠ Sum.inl c := by simpa using hbc
        simp only [keyLt, if_neg hne1] at h1
        simp only [keyLt, if_neg hne2] at h2
        simp only [eltLt] at h1 h2
        have hac : a ≠ c := by
          intro e
          subst e
          have := charListLt_asymm a b h1
          rw [h2] at this
          cases this
        have hne3 : (Sum.inl a : List Char ⊕ Nat) ≠ Sum.inl c := by simpa using hac
        simp only [keyLt, if_neg hne3, eltLt]
        exact charListLt_trans a b c h1 h2
    · -- integer phase
      obtain ⟨m, xr, rfl, hxr⟩ := alt_true_shape hx
      obtain ⟨n, yr, rfl, hyr⟩ := alt_true_shape hy
      obtain ⟨p, zr, rfl, hzr⟩ := alt_true_shape hz
      by_cases hmn : m = n <;> by_cases hnp : n = p
      · subst hmn; subst hnp
        simp only [keyLt, if_pos rfl] at h1 h2 ⊢
        exact ih false xr yr zr (by simp at hk; omega) hxr hyr hzr h1 h2
      · subst hmn
        have hne : (Sum.inr m : List Char ⊕ Nat) ≠ Sum.inr p := by simpa using hnp
        simp only [keyLt, if_neg hne] at h2 ⊢
        exact h2
      · subst hnp
        have hne : (Sum.inr m : List Char ⊕ Nat) ≠ Sum.inr n := by simpa using hmn
        simp only [keyLt, if_neg hne] at h1 ⊢
        exact h1
      · have hne1 : (Sum.inr m : List Char ⊕ Nat) ≠ Sum.inr n := by simpa using hmn
        have hne2 : (Sum.inr n : List Char ⊕ Nat) ≠ Sum.inr p := by simpa using hnp
        simp only [keyLt, if_neg hne1] at h1
        simp only [keyLt, if_neg hne2] at h2
        simp only [eltLt, decide_eq_true_eq] at h1 h2
        have hmp : m ≠ p := by omega
        have hne3 : (Sum.inr m : List Char ⊕ Nat) ≠ Sum.inr p := by simpa using hmp
        simp only [keyLt, if_neg hne3, eltLt, decide_eq_true_eq]
        omega

theorem alt_keyLt_trichotomy_aux : ∀ (k : Nat) (ph : Bool) (x y : List (List Char ⊕ Nat)),
    x.length ≤ k → Alt ph x → Alt ph y → x ≠ y →
    keyLt x y = true ∨ keyLt y x = true := by
  intro k
  induction k with
  | zero =>
    intro ph x y hk hx _ _
    cases hx <;> simp at hk
  | succ k ih =>
    intro ph x y hk hx hy hne
    cases ph
    · obtain ⟨a, xr, rfl, hxr⟩ := alt_false_shape hx
      obtain ⟨b, yr, rfl, hyr⟩ := alt_false_shape hy
      by_cases hab : a = b
      · subst hab
        have htl : xr ≠ yr := fun e => hne (by rw [e])
        rcases hxr with rfl | hxr
        · rcases hyr with rfl | hyr
          · exact absurd rfl htl
          · obtain ⟨n, yr', rfl, _⟩ := alt_true_shape hyr
            exact Or.inl (by simp [keyLt])
        · rcases hyr with rfl | hyr
          · obtain ⟨m, xr', rfl, _⟩ := alt_true_shape hxr
            exact Or.inr (by simp [keyLt])
          · rcases ih true xr yr (by simp at hk; omega) hxr hyr htl with h | h
            · exact Or.inl (by simp only [keyLt, if_pos rfl]; exact h)
            · exact Or.inr (by simp only [keyLt, if_pos rfl]; exact h)
      · have hne1 : (Sum.inl a : List Char ⊕ Nat) ≠ Sum.inl b := by simpa using hab
        have hne2 : (Sum.inl b : List Char ⊕ Nat) ≠ Sum.inl a :=
          fun e => hne1 e.symm
        rcases charListLt_trichotomy a b hab with h | h
        · exact Or.inl (by simp only [keyLt, if_neg hne1, eltLt]; exact h)
        · exact Or.inr (by simp only [keyLt, if_neg hne2, eltLt]; exact h)
    · obtain ⟨m, xr, rfl, hxr⟩ := alt_true_shape hx
      obtain ⟨n, yr, rfl, hyr⟩ := alt_true_shape hy
      by_cases hmn : m = n
      · subst hmn
        have htl : xr ≠ yr := fun e => hne (by rw [e])
        rcases ih false xr yr (by simp at hk; omega) hxr hyr htl with h | h
        · exact Or.inl (by simp only [keyLt, if_pos rfl]; exact h)
        · exact Or.inr (by simp only [keyLt, if_pos rfl]; exact h)
      · have hne1 : (Sum.inr m : List Char ⊕ Nat) ≠ Sum.inr n := by simpa using hmn
        have hne2 : (Sum.inr n : List Char ⊕ Nat) ≠ Sum.inr m :=
          fun e => hne1 e.symm
        rcases Nat.lt_or_ge m n with h | h
        · exact Or.inl (by
            simp only [keyLt, if_neg hne1, eltLt, decide_eq_true_eq]
            exact h)
        · have : n < m := by omega
          exact Or.inr (by
            simp only [keyLt, if_neg hne2, eltLt, decide_eq_true_eq]
            exact this)


theorem naturalLe_iff (a b : String) :
    naturalLe a b = true ↔
      keyLt (natural_sort_key b) (natural_sort_key a) = false := by
  simp [naturalLe]

theorem naturalLe_total (a b : String) :
    naturalLe a b = true ∨ naturalLe b a = true := by
  by_cases h : keyLt (natural_sort_key b) (natural_sort_key a) = true
  · exact Or.inr ((naturalLe_iff b a).mpr (keyLt_asymm _ _ h))
  · exact Or.inl ((naturalLe_iff a b).mpr (by
      cases hb : keyLt (natural_sort_key b) (natural_sort_key a)
      · rfl
      · exact absurd hb h))

theorem keyLt_nk_trichotomy (s t : String)
    (h : natural_sort_key s ≠ natural_sort_key t) :
    keyLt (natural_sort_key s) (natural_sort_key t) = true ∨
    keyLt (natural_sort_key t) (natural_sort_key s) = true :=
  alt_keyLt_trichotomy_aux (natural_sort_key s).length false _ _ le_rfl
    (nk_alt_key s) (nk_alt_key t) h

theorem keyLt_nk_trans (s t u : String)
    (h1 : keyLt (natural_sort_key s) (natural_sort_key t) = true)
    (h2 : keyLt (natural_sort_key t) (natural_sort_key u) = true) :
    keyLt (natural_sort_key s) (natural_sort_key u) = true :=
  alt_keyLt_trans_aux (natural_sort_key s).length false _ _ _ le_rfl
    (nk_alt_key s) (nk_alt_key t) (nk_alt_key u) h1 h2

theorem naturalLe_trans (a b c : String)
    (h1 : naturalLe a b = true) (h2 : naturalLe b c = true) :
    naturalLe a c = true := by
  rw [naturalLe_iff] at h1 h2 ⊢
  cases hca : keyLt (natural_sort_key c) (natural_sort_key a)
  · rfl
  · exfalso
    by_cases hcb : natural_sort_key c = natural_sort_key b
    · rw [hcb] at hca
      rw [hca] at h1
      cases h1
    · rcases keyLt_nk_trichotomy c b hcb with h | h
      · rw [h] at h2; cases h2
      · have := keyLt_nk_trans b c a h hca
        rw [this] at h1
        cases h1

theorem insertSorted_perm (a : String) :
    ∀ l, (insertSorted a l).Perm (a :: l) := by
  intro l
  induction l with
  | nil => exact List.Perm.refl _
  | cons b l ih =>
    by_cases h : naturalLe b a = true
    · simp only [insertSorted, if_pos h]
      exact (ih.cons b).trans (List.Perm.swap a b l)
    · simp only [insertSorted, if_neg h]
      exact List.Perm.refl _

theorem pairwise_insertSorted (a : String) :
    ∀ l, List.Pairwise (fun x y => naturalLe x y = true) l →
    List.Pairwise (fun x y => naturalLe x y = true) (insertSorted a l) := by
  intro l
  induction l with
  | nil => intro _; exact List.pairwise_singleton _ a
  | cons b l ih =>
    intro hp
    rcases List.pairwise_cons.mp hp with ⟨hb, hl⟩
    by_cases h : naturalLe b a = true
    · simp only [insertSorted, if_pos h]
      refine List.pairwise_cons.mpr ⟨?_, ih hl⟩
      intro x hx
      rcases List.mem_cons.mp ((insertSorted_perm a l).mem_iff.mp hx) with rfl | hx'
      · exact h
      · exact hb x hx'
    · simp only [insertSorted, if_neg h]
      have hab : naturalLe a b = true := (naturalLe_total a b).resolve_right h
      refine List.pairwise_cons.mpr ⟨?_, hp⟩
      intro x hx
      rcases List.mem_cons.mp hx with rfl | hx'
      · exact hab
      · exact naturalLe_trans a b x hab (hb x hx')

theorem sortImages_aux (l : List String) :
    ∀ acc : List String,
    List.Pairwise (fun x y => naturalLe x y = true) acc →
    (List.foldl (fun acc a => insertSorted a acc) acc l).Perm (acc ++ l) ∧
    List.Pairwise (fun x y => naturalLe x y = true)
      (List.foldl (fun acc a => insertSorted a acc) acc l) := by
  induction l with
  | nil => intro acc h; exact ⟨by simp, h⟩
  | cons a l ih =>
    intro acc h
    obtain ⟨hp, hs⟩ := ih (insertSorted a acc) (pairwise_insertSorted a acc h)
    refine ⟨?_, hs⟩
    exact hp.trans (((insertSorted_perm a acc).append_right l).trans
      List.perm_middle.symm)

theorem sortImages_perm (l : List String) : (sortImages l).Perm l :=
  (sortImages_aux l [] List.Pairwise.nil).1

theorem sortImages_pairwise (l : List String) :
    List.Pairwise (fun x y => naturalLe x y = true) (sortImages l) :=
  (sortImages_aux l [] List.Pairwise.nil).2

theorem sortImages_deterministic (l1 l2 : List String) (hperm : l1.Perm l2)
    (hdist : l1.Pairwise (fun a b => natural_sort_key a ≠ natural_sort_key b)) :
    sortImages l1 = sortImages l2 := by
  haveI hr : IsAntisymm String (fun a b =>
      keyLt (natural_sort_key a) (natural_sort_key b) = true ∨ a = b) := by
    constructor
    intro a b hab hba
    rcases hab with h1 | h1
    · rcases hba with h2 | h2
      · have hf := keyLt_asymm _ _ h1
        rw [h2] at hf
        cases hf
      · exact h2.symm
    · exact h1
  have hsorted : ∀ l : List String,
      l.Pairwise (fun a b => natural_sort_key a ≠ natural_sort_key b) →
      List.Sorted (fun a b =>
        keyLt (natural_sort_key a) (natural_sort_key b) = true ∨ a = b)
        (sortImages l) := by
    intro l hd
    have hd' : (sortImages l).Pairwise
        (fun a b => natural_sort_key a ≠ natural_sort_key b) :=
      ((sortImages_perm l).pairwise_iff (fun h e => h e.symm)).mpr hd
    refine ((sortImages_pairwise l).and hd').imp ?_
    intro a b hab
    refine Or.inl ?_
    rcases keyLt_nk_trichotomy a b hab.2 with h | h
    · exact h
    · rw [(naturalLe_iff a b).mp hab.1] at h
      cases h
  have hd2 : l2.Pairwise (fun a b => natural_sort_key a ≠ natural_sort_key b) :=
    (hperm.pairwise_iff (fun h e => h e.symm)).mp hdist
  exact List.eq_of_perm_of_sorted
    ((sortImages_perm l1).trans (hperm.trans (sortImages_perm l2).symm))
    (hsorted l1 hdist) (hsorted l2 hd2)

theorem nkDig_digits_append (rest : List Char) :
    ∀ (ds : List Char) (n : Nat), (∀ c ∈ ds, c.isDigit = true) →
    nkDig n (ds ++ '.' :: rest) =
      Sum.inr (ds.foldl digStep n) :: nkNon ['.'] rest := by
  intro ds
  induction ds with
  | nil =>
    intro n _
    show nkDig n ('.' :: rest) = _
    simp only [nkDig, if_neg (by decide : ¬ ('.'.isDigit = true))]
    rfl
  | cons d ds ih =>
    intro n hd
    have hdd : d.isDigit = true := hd d (List.mem_cons_self d ds)
    show nkDig n (d :: (ds ++ '.' :: rest)) = _
    simp only [nkDig, if_pos hdd]
    exact ih (digStep n d) (fun c hc => hd c (List.mem_cons_of_mem d hc))

theorem nk_page_key : ∀ ds : List Char, ds ≠ [] → (∀ c ∈ ds, c.isDigit = true) →
    natural_sort_key ⟨'p' :: 'a' :: 'g' :: 'e' ::
        (ds ++ '.' :: 'p' :: 'n' :: 'g' :: [])⟩ =
      [Sum.inl ['p', 'a', 'g', 'e'], Sum.inr (digitsVal ds),
       Sum.inl ['.', 'p', 'n', 'g']] := by
  intro ds hne hd
  match ds, hne with
  | d :: ds2, _ =>
    have hd0 : d.isDigit = true := hd d (List.mem_cons_self d ds2)
    show nkNon [] ('p' :: 'a' :: 'g' :: 'e' ::
      (d :: (ds2 ++ '.' :: 'p' :: 'n' :: 'g' :: []))) = _
    rw [show nkNon [] ('p' :: 'a' :: 'g' :: 'e' ::
        (d :: (ds2 ++ '.' :: 'p' :: 'n' :: 'g' :: []))) =
      nkNon ['e', 'g', 'a', 'p']
        (d :: (ds2 ++ '.' :: 'p' :: 'n' :: 'g' :: [])) from rfl]
    simp only [nkNon, if_pos hd0]
    rw [nkDig_digits_append ('p' :: 'n' :: 'g' :: []) ds2 (digStep 0 d)
      (fun c hc => hd c (List.mem_cons_of_mem d hc))]
    rfl

theorem keyLt_page_keys (p q : List Char) (v1 v2 : Nat) :
    keyLt [Sum.inl p, Sum.inr v1, Sum.inl q]
        [Sum.inl p, Sum.inr v2, Sum.inl q] = decide (v1 < v2) := by
  by_cases h : v1 = v2
  · subst h
    simp [keyLt, Nat.lt_irrefl]
  · have hne : (Sum.inr v1 : List Char ⊕ Nat) ≠ Sum.inr v2 := by simpa using h
    simp [keyLt, if_neg hne, eltLt]
    omega

/-- C9 counterexample: the ordering handed to the pool is not
deterministic for a fixed set of filenames.  "A.png" and "a.png" are
distinct filenames with equal (case-insensitively lowered) natural
sort keys, and the stable sort keeps enumeration order on key ties, so
the two `os.listdir` enumeration orders of the same set yield
different page orders. -/
theorem natural_sort_listing_order_dependent :
    (["A.png", "a.png"] : List String).Perm ["a.png", "A.png"] ∧
    sortImages ["A.png", "a.png"] = ["A.png", "a.png"] ∧
    sortImages ["a.png", "A.png"] = ["a.png", "A.png"] ∧
    sortImages ["A.png", "a.png"] ≠ sortImages ["a.png", "A.png"] :=
  ⟨List.Perm.swap "a.png" "A.png" [], by decide, by decide, by decide⟩

/-- C9 as amended: the pages handed to the pool are sorted by the
natural key order — filenames split into digit and non-digit runs,
digit runs comparing as integers (so "page2.png" sorts before
"page10.png") and non-digit runs comparing case-insensitively — and
this ordering is deterministic for any fixed set of filenames whose
natural keys are pairwise distinct; filenames with equal keys (for
example, names differing only in letter case) keep the `os.listdir`
enumeration order. -/
theorem natural_order_of_pages (folder : Folder) (l1 l2 : List String)
    (hperm : l1.Perm l2)
    (hdist : l1.Pairwise (fun a b => natural_sort_key a ≠ natural_sort_key b)) :
    List.Pairwise (fun a b => naturalLe a b = true) (documentImages folder) ∧
    (documentImages folder).Perm (folder.files.filter isImageFile) ∧
    sortImages l1 = sortImages l2 ∧
    (∀ ds es : List Char, ds ≠ [] → es ≠ [] →
      (∀ c ∈ ds, c.isDigit = true) → (∀ c ∈ es, c.isDigit = true) →
      keyLt (natural_sort_key ⟨'p' :: 'a' :: 'g' :: 'e' ::
              (ds ++ '.' :: 'p' :: 'n' :: 'g' :: [])⟩)
            (natural_sort_key ⟨'p' :: 'a' :: 'g' :: 'e' ::
              (es ++ '.' :: 'p' :: 'n' :: 'g' :: [])⟩) =
        decide (digitsVal ds < digitsVal es)) ∧
    sortImages ["page10.png", "page2.png"] = ["page2.png", "page10.png"] ∧
    natural_sort_key "Page2.PNG" = natural_sort_key "page2.png" := by
  refine ⟨sortImages_pairwise _, sortImages_perm _,
    sortImages_deterministic l1 l2 hperm hdist, ?_, by decide, by decide⟩
  intro ds es hd he hdd hee
  rw [nk_page_key ds hd hdd, nk_page_key es he hee, keyLt_page_keys]

/-- Witness for the amended C9 on `folderInvoice` and the two listing
orders of {"page1.png", "page2.png"}, whose keys are distinct. -/
theorem natural_order_of_pages_witness :
    List.Pairwise (fun a b => naturalLe a b = true)
      (documentImages folderInvoice) ∧
    (documentImages folderInvoice).Perm
      (folderInvoice.files.filter isImageFile) ∧
    sortImages ["page2.png", "page1.png"] =
      sortImages ["page1.png", "page2.png"] ∧
    (∀ ds es : List Char, ds ≠ [] → es ≠ [] →
      (∀ c ∈ ds, c.isDigit = true) → (∀ c ∈ es, c.isDigit = true) →
      keyLt (natural_sort_key ⟨'p' :: 'a' :: 'g' :: 'e' ::
              (ds ++ '.' :: 'p' :: 'n' :: 'g' :: [])⟩)
            (natural_sort_key ⟨'p' :: 'a' :: 'g' :: 'e' ::
              (es ++ '.' :: 'p' :: 'n' :: 'g' :: [])⟩) =
        decide (digitsVal ds < digitsVal es)) ∧
    sortImages ["page10.png", "page2.png"] = ["page2.png", "page10.png"] ∧
    natural_sort_key "Page2.PNG" = natural_sort_key "page2.png" :=
  natural_order_of_pages folderInvoice ["page2.png", "page1.png"]
    ["page1.png", "page2.png"]
    (List.Perm.swap "page1.png" "page2.png" []) (by decide)

end OcrVision
